import Mathlib

set_option autoImplicit false

/-!
Verification of the tick ingestion / aggregation backend.

The development shallowly embeds the Python backend:

* `get_ohlc` — the OHLC aggregation endpoint (`backend/main.py`): the SQL
  query buckets ticks of one symbol inside a lookback window into
  fixed-width buckets and computes, per bucket, `open` (price at earliest
  timestamp), `close` (price at latest timestamp), `high` (max price),
  `low` (min price).
* `ts_utc_from_finnhub` — the timestamp normalizer.
* `WSManager` — the websocket broadcast hub.
* `backfill_yahoo` — the chunked Yahoo backfill loop with its retry /
  backoff policy.
* `poll_cycle` — one cycle of the Finnhub REST polling task.
* `synth_ticks_for_candle` / `synth_ticks_intraday` — the bar-to-tick
  synthesizers from `backend/tools/backfill_yahoo.py`.

Timestamps are modelled as integers (unix seconds); prices as rationals.
-/

/-- A row of the `prices` table: `(ts, symbol, price)`. -/
structure Tick where
  ts : ℤ
  symbol : String
  price : ℚ
deriving DecidableEq

/-- One OHLC bar as returned by the `/ohlc` endpoint:
`{time, open, high, low, close}` (`open_` since `open` is reserved). -/
structure Bar where
  time : ℤ
  open_ : ℚ
  high : ℚ
  low : ℚ
  close : ℚ
deriving DecidableEq

/-- `time_bucket(width, ts)`: floor `t` to a multiple of `w` (bucket start).
TimescaleDB buckets are aligned to absolute time, flooring toward `-∞`. -/
def bucketOf (w : ℤ) (t : ℤ) : ℤ := w * Int.fdiv t w

/-- Aggregate the ticks of one bucket into a bar, as the SQL does:
`open` = price of the row picked by `DISTINCT ON (bucket) … ORDER BY ts ASC`
(first row with minimal `ts`), `close` = the row picked with `ORDER BY ts
DESC` (a row with maximal `ts`), `high` = `MAX(price)`, `low` = `MIN(price)`.
An empty bucket produces no bar. -/
def aggBar (bk : ℤ) : List Tick → Option Bar
  | [] => none
  | t :: ts =>
    some { time := bk
           open_ := (ts.foldl (fun a b => if b.ts < a.ts then b else a) t).price
           close := (ts.foldl (fun a b => if a.ts ≤ b.ts then b else a) t).price
           high := ts.foldl (fun a b => max a b.price) t.price
           low := ts.foldl (fun a b => min a b.price) t.price }

/-- The `/ohlc` endpoint (`get_ohlc` in `backend/main.py`): keep the ticks of
`symbol` within the lookback window `ts ≥ now - lookback_minutes`, bucket
them by `res_min` minutes (resolution `"D"` is normalized to `1440` by the
endpoint before this point), aggregate each non-empty bucket, and return the
bars ordered by bucket start (`ORDER BY agg.bucket`). -/
def get_ohlc (symbol : String) (res_min lookback_minutes now : ℤ)
    (ticks : List Tick) : List Bar :=
  let w := res_min * 60
  let b := ticks.filter (fun tk =>
    tk.symbol = symbol ∧ now - lookback_minutes * 60 ≤ tk.ts)
  let buckets := ((b.map (fun tk => bucketOf w tk.ts)).dedup).insertionSort (· ≤ ·)
  buckets.filterMap (fun bk =>
    aggBar bk (b.filter (fun tk => bucketOf w tk.ts = bk)))

/-- `synth_ticks_for_candle` (`backend/tools/backfill_yahoo.py`): expand one
daily candle into 4 synthetic ticks inside the candle's UTC day, at minute
offsets 0 (open), 1 (low), 2 (high), 3 (close). `base` is the day's
midnight (`day_ts_utc.replace(hour=0, minute=0, second=0, microsecond=0)`).
(The Python dict literal keys the symbol entry by the symbol's own value —
a quirk that does not affect the row's timestamp/symbol/price content,
which is what is modelled.) -/
def synth_ticks_for_candle (base : ℤ) (symbol : String) (o h l c : ℚ) :
    List Tick :=
  [ ⟨base + 0 * 60, symbol, o⟩
  , ⟨base + 1 * 60, symbol, l⟩
  , ⟨base + 2 * 60, symbol, h⟩
  , ⟨base + 3 * 60, symbol, c⟩ ]

/-- The inline synthesizer of `backfill_intraday`: expand one 1-minute candle
into 4 ticks inside the minute, at second offsets 0 (open), 15 (low),
30 (high), 45 (close). `minute_start` is the bar's minute with
seconds/microseconds zeroed. -/
def synth_ticks_intraday (minute_start : ℤ) (symbol : String) (o h l c : ℚ) :
    List Tick :=
  [ ⟨minute_start + 0, symbol, o⟩
  , ⟨minute_start + 15, symbol, l⟩
  , ⟨minute_start + 30, symbol, h⟩
  , ⟨minute_start + 45, symbol, c⟩ ]

/-- `ts_utc_from_finnhub` (`backend/main.py`): normalize a raw Finnhub
timestamp to a UTC instant (seconds since epoch, as a rational). `none`
models an absent value. Python's `if not ts_val:` also treats a present `0`
as absent, returning `datetime.now` (`now`); a value above `1e12` is
milliseconds (`ts_val / 1000.0`), anything else seconds. -/
def ts_utc_from_finnhub (now : ℚ) (ts_val : Option ℚ) : ℚ :=
  match ts_val with
  | none => now
  | some v => if v = 0 then now else if v > 10 ^ 12 then v / 1000 else v

/-- The broadcast hub (`WSManager` in `backend/main.py`): the set of live
subscriber connections, modelled as a list of handles. -/
structure WSManager (α : Type) where
  active : List α

/-- `disconnect`: `self.active.discard(ws)`. -/
def WSManager.disconnect {α : Type} [DecidableEq α] (m : WSManager α)
    (ws : α) : WSManager α :=
  ⟨m.active.filter (fun x => x ≠ ws)⟩

/-- `broadcast`: walk the registered subscribers, attempting delivery to each
in turn — `send ws = true` models `await ws.send_text(message)` succeeding,
`false` the raised exception, which only appends `ws` to `dead`; afterwards
every dead subscriber is disconnected. Returns the list of subscribers that
received the message together with the new hub state. -/
def WSManager.broadcast {α : Type} [DecidableEq α] (m : WSManager α)
    (send : α → Bool) : List α × WSManager α :=
  let r := m.active.foldl
    (fun acc ws =>
      if send ws then (acc.1 ++ [ws], acc.2) else (acc.1, acc.2 ++ [ws]))
    ([], [])
  (r.1, r.2.foldl (fun m' ws => m'.disconnect ws) m)

/-- The transient statuses retried by `backfill_yahoo`:
`r.status_code in (429, 502, 503, 504)`. -/
def isTransient (s : ℕ) : Bool := s == 429 || s == 502 || s == 503 || s == 504

/-- `_backoff_sleep(attempt)`: sleep `min(8, 2 ** max(0, attempt))` seconds
plus `random.uniform(0.0, 0.5)` jitter; the jitter drawn at each attempt is
a parameter `jitter`. -/
def backoff_delay (jitter : ℕ → ℚ) (attempt : ℕ) : ℚ :=
  min 8 (2 ^ attempt) + jitter attempt

/-- Outcome of the per-chunk retry loop, carrying the backoff delays slept. -/
inductive ChunkResult where
  | success (sleeps : List ℚ)
  | failure (status : ℕ) (sleeps : List ℚ)
deriving DecidableEq

/-- The retry loop of `backfill_yahoo` for one chunk:
`for attempt in range(5)` — GET (`resp attempt` is the status of the
`attempt`-th request); `200` breaks out, a transient status sleeps
`_backoff_sleep(attempt)` and retries, any other status returns the failure
at once. After an exhausted loop the final `if r.status_code != 200` reports
the last (transient) status. `fuel` counts remaining loop iterations. -/
def fetch_chunk_loop (jitter : ℕ → ℚ) (resp : ℕ → ℕ) :
    ℕ → ℕ → List ℚ → ChunkResult
  | 0, attempt, sleeps => .failure (resp (attempt - 1)) sleeps
  | fuel + 1, attempt, sleeps =>
    let s := resp attempt
    if s = 200 then .success sleeps
    else if isTransient s then
      fetch_chunk_loop jitter resp fuel (attempt + 1)
        (sleeps ++ [backoff_delay jitter attempt])
    else .failure s sleeps

/-- One chunk request with the full retry budget of 5 attempts. -/
def fetch_chunk (jitter : ℕ → ℚ) (resp : ℕ → ℕ) : ChunkResult :=
  fetch_chunk_loop jitter resp 5 0 []

/-- Environment of a backfill run: `resp t1 t2 attempt` is the upstream
status for the `attempt`-th request of chunk `[t1, t2)`; `nrows t1 t2` the
number of non-null closes inserted for a successful chunk; `jitter` the
random jitter stream. -/
structure BackfillEnv where
  resp : ℤ → ℤ → ℕ → ℕ
  nrows : ℤ → ℤ → ℕ
  jitter : ℕ → ℚ

/-- Result of `backfill_yahoo`: `ok inserted_total` models the
`{"ok": True, "inserted": …}` response; `err status t1 t2` the
`{"ok": False, "status": …, "chunk": [t1, t2]}` response. `fuelOut` is an
artifact of the fuelled loop; `backfill_fuel` always provides enough fuel,
so it is unreachable from `backfill_yahoo` (`backfill_ok_of_success`). -/
inductive BackfillResult where
  | ok (inserted : ℕ)
  | err (status : ℕ) (t1 t2 : ℤ)
  | fuelOut
deriving DecidableEq

/-- The chunk loop of `backfill_yahoo`: `while t2 > start:` take the chunk
`[max(start, t2 - chunk_secs), t2)`, fetch it with the retry loop; on
success insert the chunk's closes (`env.nrows t1 t2` rows) and move the
window back (`t2 = t1`); on failure return the structured failure with that
chunk's boundaries. The second component collects every backoff delay
slept. -/
def backfill_loop (env : BackfillEnv) (chunk_secs start : ℤ) :
    ℕ → ℤ → ℕ → List ℚ → BackfillResult × List ℚ
  | fuel, t2, inserted, sleeps =>
    if start < t2 then
      match fuel with
      | 0 => (.fuelOut, sleeps)
      | f + 1 =>
        let t1 := max start (t2 - chunk_secs)
        match fetch_chunk env.jitter (env.resp t1 t2) with
        | .success sl =>
          backfill_loop env chunk_secs start f t1
            (inserted + env.nrows t1 t2) (sleeps ++ sl)
        | .failure st sl => (.err st t1 t2, sleeps ++ sl)
    else (.ok inserted, sleeps)

/-- `_yahoo_interval` / `_chunk_days_for_interval` composed: a daily
resolution (`"D"`/`"d"`) maps to interval `"1d"` and 180-day chunks, any
minute resolution maps to `"⟨res⟩m"` and 5-day chunks; `intraday` is
whether the interval ends in `"m"`. -/
def chunk_days_for_res (intraday : Bool) : ℕ := if intraday then 5 else 180

/-- `backfill_yahoo` (`backend/main.py`): backfill `days` days back from
`now` in chunks, working backward. `days + 1` iterations of fuel always
suffice, since every chunk is at least a day wide. -/
def backfill_yahoo (env : BackfillEnv) (intraday : Bool) (days : ℕ)
    (now : ℤ) : BackfillResult × List ℚ :=
  let start := now - days * 86400
  let chunk_secs := (chunk_days_for_res intraday : ℤ) * 86400
  backfill_loop env chunk_secs start (days + 1) now 0 []

/-- Result of one Finnhub quote GET in `finnhub_poll_task`: a non-200
response (`quote error … continue`), or a 200 body with optional price `c`
and optional unix-seconds timestamp `t`. -/
inductive FetchResult where
  | httpError (status : ℕ)
  | ok (c : Option ℚ) (t : Option ℤ)
deriving DecidableEq

/-- What one cycle of the polling task did: the ticks written to the store,
the broadcast messages sent (each message carries one batch), and whether an
exception escaped to the cycle-level `except` (which logs it; the task then
sleeps and starts the next cycle). -/
structure CycleResult where
  writes : List Tick
  broadcasts : List (List Tick)
  crashed : Bool
deriving DecidableEq

/-- The tick the poll loop builds for one symbol: a non-200 response or a
missing price skips the symbol (`continue`); `ts_sec = q.get("t") or 0`;
`ts = datetime.fromtimestamp(ts_sec) if ts_sec else datetime.now()`. -/
def poll_tick (now : ℤ) (symbol : String) : FetchResult → Option Tick
  | .httpError _ => none
  | .ok none _ => none
  | .ok (some price) t =>
    let ts_sec := t.getD 0
    some ⟨if ts_sec = 0 then now else ts_sec, symbol, price⟩

/-- One cycle of `finnhub_poll_task` over the remaining symbols, carrying
the batch `out` accumulated so far. Obtained ticks are written to the store
one by one (`store tk = false` models the INSERT raising); a raised store
exception aborts the cycle — the remaining symbols are not fetched and
nothing is broadcast — and is caught by the cycle-level `except`
(`crashed = true`). After the loop, a non-empty batch is broadcast as one
message. Ticks written before the crash stay written (each insert
commits). -/
def poll_cycle (now : ℤ) (store : Tick → Bool)
    (fetch : String → FetchResult) : List String → List Tick → CycleResult
  | [], out =>
    { writes := out
      broadcasts := if out.isEmpty then [] else [out]
      crashed := false }
  | sym :: rest, out =>
    match poll_tick now sym (fetch sym) with
    | none => poll_cycle now store fetch rest out
    | some tk =>
      if store tk then poll_cycle now store fetch rest (out ++ [tk])
      else { writes := out, broadcasts := [], crashed := true }

/-- One cycle of `finnhub_poll_task` with the configured `REST_SYMBOLS`
(`{"QQQ": "QQQ", "SPY": "SPY"}`, iterated in insertion order). -/
def finnhub_poll_cycle (now : ℤ) (store : Tick → Bool)
    (fetch : String → FetchResult) : CycleResult :=
  poll_cycle now store fetch ["QQQ", "SPY"] []

/-- A concrete fetch outcome: `SPY` succeeds with price 5 at `t = 100`,
every other symbol gets a 500 response. -/
def fetchQQQFailSPYOk : String → FetchResult :=
  fun sym => if sym = "SPY" then .ok (some 5) (some 100) else .httpError 500

/-- A fetch where every symbol returns a usable quote (price 5, `t = 100`). -/
def fetchBothOk : String → FetchResult := fun _ => .ok (some 5) (some 100)

/-- A store whose INSERT raises exactly for `QQQ` ticks. -/
def storeFailQQQ : Tick → Bool := fun tk => tk.symbol ≠ "QQQ"

/-- A fetch returning a usable price with no timestamp field. -/
def fetchSPYNoTs : String → FetchResult := fun _ => .ok (some 5) none

/-- A fold that at each step keeps either the accumulator or the new element
stays inside the initial element and the list. -/
theorem foldl_choice_mem (p : Tick → Tick → Prop) [DecidableRel p]
    (t : Tick) (l : List Tick) :
    l.foldl (fun a b => if p a b then b else a) t ∈ t :: l := by
  induction l generalizing t with
  | nil => simp
  | cons b l ih =>
    rw [List.foldl_cons]
    rcases List.mem_cons.mp (ih (if p t b then b else t)) with h' | h'
    · rw [h']
      split <;> simp
    · simp [h']

theorem foldl_min_le_init (init : ℚ) (l : List Tick) :
    l.foldl (fun a b => min a b.price) init ≤ init := by
  induction l generalizing init with
  | nil => simp
  | cons b l ih =>
    calc l.foldl (fun a b => min a b.price) (min init b.price)
        ≤ min init b.price := ih _
      _ ≤ init := min_le_left _ _

theorem foldl_min_le_mem (init : ℚ) (l : List Tick) (x : Tick) (hx : x ∈ l) :
    l.foldl (fun a b => min a b.price) init ≤ x.price := by
  induction l generalizing init with
  | nil => cases hx
  | cons b l ih =>
    rcases List.mem_cons.mp hx with h | h
    · subst h
      calc l.foldl (fun a b => min a b.price) (min init x.price)
          ≤ min init x.price := foldl_min_le_init _ _
        _ ≤ x.price := min_le_right _ _
    · exact ih _ h

theorem le_foldl_max_init (init : ℚ) (l : List Tick) :
    init ≤ l.foldl (fun a b => max a b.price) init := by
  induction l generalizing init with
  | nil => simp
  | cons b l ih =>
    calc init ≤ max init b.price := le_max_left _ _
      _ ≤ l.foldl (fun a b => max a b.price) (max init b.price) := ih _

theorem le_foldl_max_mem (init : ℚ) (l : List Tick) (x : Tick) (hx : x ∈ l) :
    x.price ≤ l.foldl (fun a b => max a b.price) init := by
  induction l generalizing init with
  | nil => cases hx
  | cons b l ih =>
    rcases List.mem_cons.mp hx with h | h
    · subst h
      calc x.price ≤ max init x.price := le_max_right _ _
        _ ≤ l.foldl (fun a b => max a b.price) (max init x.price) :=
          le_foldl_max_init _ _
    · exact ih _ h

/-- Every bar produced by `aggBar` satisfies the OHLC invariant. -/
theorem aggBar_price_bounds (bk : ℤ) (l : List Tick) (bar : Bar)
    (h : aggBar bk l = some bar) :
    bar.low ≤ min bar.open_ bar.close ∧ max bar.open_ bar.close ≤ bar.high := by
  match l with
  | [] => simp [aggBar] at h
  | t :: ts =>
    simp only [aggBar, Option.some.injEq] at h
    subst h
    have hopen := foldl_choice_mem (fun a b => b.ts < a.ts) t ts
    have hclose := foldl_choice_mem (fun a b => a.ts ≤ b.ts) t ts
    constructor
    · apply le_min
      · rcases List.mem_cons.mp hopen with h' | h'
        · rw [h']
          exact foldl_min_le_init _ _
        · exact foldl_min_le_mem _ _ _ h'
      · rcases List.mem_cons.mp hclose with h' | h'
        · rw [h']
          exact foldl_min_le_init _ _
        · exact foldl_min_le_mem _ _ _ h'
    · apply max_le
      · rcases List.mem_cons.mp hopen with h' | h'
        · rw [h']
          exact le_foldl_max_init _ _
        · exact le_foldl_max_mem _ _ _ h'
      · rcases List.mem_cons.mp hclose with h' | h'
        · rw [h']
          exact le_foldl_max_init _ _
        · exact le_foldl_max_mem _ _ _ h'

/-- C1: every bar produced by the OHLC aggregation — over any tick set, any
symbol, any bucket width and any lookback window — satisfies
`low ≤ min(open, close) ≤ max(open, close) ≤ high`, hence `low ≤ high`. -/
theorem ohlc_bar_price_bounds (symbol : String)
    (res_min lookback_minutes now : ℤ) (ticks : List Tick) (bar : Bar)
    (hbar : bar ∈ get_ohlc symbol res_min lookback_minutes now ticks) :
    bar.low ≤ min bar.open_ bar.close ∧ max bar.open_ bar.close ≤ bar.high ∧
      bar.low ≤ bar.high := by
  simp only [get_ohlc, List.mem_filterMap] at hbar
  obtain ⟨bk, -, hagg⟩ := hbar
  obtain ⟨h1, h2⟩ := aggBar_price_bounds _ _ _ hagg
  refine ⟨h1, h2, ?_⟩
  calc bar.low ≤ min bar.open_ bar.close := h1
    _ ≤ bar.open_ := min_le_left _ _
    _ ≤ max bar.open_ bar.close := le_max_left _ _
    _ ≤ bar.high := h2

/-- C1 witness: the invariant applied to a concrete aggregation output. -/
theorem ohlc_bar_price_bounds_witness :
    (⟨60, 5, 7, 5, 7⟩ : Bar) ∈
        get_ohlc "SPY" 1 390 200
          [⟨100, "SPY", 5⟩, ⟨110, "SPY", 7⟩, ⟨50, "QQQ", 3⟩] ∧
      ((5 : ℚ) ≤ min 5 7 ∧ max (5 : ℚ) 7 ≤ 7 ∧ (5 : ℚ) ≤ 7) :=
  ⟨by decide,
    ohlc_bar_price_bounds "SPY" 1 390 200
      [⟨100, "SPY", 5⟩, ⟨110, "SPY", 7⟩, ⟨50, "QQQ", 3⟩] ⟨60, 5, 7, 5, 7⟩
      (by decide)⟩

/-- Flooring to a bucket is the identity shift inside the bucket. -/
theorem bucketOf_eq (w k m : ℤ) (hw : 0 < w) (hm : 0 ≤ m) (hmw : m < w) :
    bucketOf w (w * k + m) = w * k := by
  unfold bucketOf
  rw [Int.fdiv_eq_ediv _ hw.le]
  have h1 : (w * k + m) / w = k := by
    rw [add_comm, Int.add_mul_ediv_left m k hw.ne',
      Int.ediv_eq_zero_of_lt hm hmw, zero_add]
  rw [h1]

theorem dedup_replicate (n : ℕ) (a : ℤ) (hn : n ≠ 0) :
    (List.replicate n a).dedup = [a] := by
  induction n with
  | zero => exact absurd rfl hn
  | succ n ih =>
    rw [List.replicate_succ]
    rcases Nat.eq_zero_or_pos n with h | h
    · subst h; simp
    · rw [List.dedup_cons_of_mem (by simp [List.mem_replicate]; omega)]
      exact ih (by omega)

/-- When every tick of the input has the right symbol, lies in the lookback
window and falls into the single bucket `B`, `get_ohlc` returns just the
aggregation of that bucket. -/
theorem get_ohlc_single_bucket (symbol : String)
    (res_min lookback_minutes now B : ℤ) (ticks : List Tick)
    (hne : ticks ≠ [])
    (hsym : ∀ tk ∈ ticks, tk.symbol = symbol)
    (hwin : ∀ tk ∈ ticks, now - lookback_minutes * 60 ≤ tk.ts)
    (hbk : ∀ tk ∈ ticks, bucketOf (res_min * 60) tk.ts = B) :
    get_ohlc symbol res_min lookback_minutes now ticks =
      (aggBar B ticks).toList := by
  simp only [get_ohlc]
  have h1 : List.filter
      (fun tk => decide (tk.symbol = symbol ∧
        now - lookback_minutes * 60 ≤ tk.ts)) ticks = ticks :=
    List.filter_eq_self.mpr (fun tk htk => by
      simp [hsym tk htk, hwin tk htk])
  rw [h1]
  have h2 : List.map (fun tk => bucketOf (res_min * 60) tk.ts) ticks =
      List.replicate ticks.length B := by
    have h2a : ∀ b ∈ List.map (fun tk => bucketOf (res_min * 60) tk.ts) ticks,
        b = B := by
      intro b hb
      simp only [List.mem_map] at hb
      obtain ⟨tk, htk, rfl⟩ := hb
      exact hbk tk htk
    simpa using List.eq_replicate_of_mem h2a
  rw [h2, dedup_replicate _ _ (by simpa [List.length_eq_zero] using hne)]
  have h3 : List.filter
      (fun tk => decide (bucketOf (res_min * 60) tk.ts = B)) ticks = ticks :=
    List.filter_eq_self.mpr (fun tk htk => by simp [hbk tk htk])
  have h4 : List.insertionSort (· ≤ ·) [B] = [B] := rfl
  rw [h4]
  simp only [List.filterMap, h3]
  cases aggBar B ticks <;> rfl

/-- `aggBar` on four ticks with strictly increasing timestamps. -/
theorem aggBar_four (B : ℤ) (t0 t1 t2 t3 : Tick)
    (h01 : t0.ts < t1.ts) (h12 : t1.ts < t2.ts) (h23 : t2.ts < t3.ts) :
    aggBar B [t0, t1, t2, t3] =
      some ⟨B, t0.price,
        max (max (max t0.price t1.price) t2.price) t3.price,
        min (min (min t0.price t1.price) t2.price) t3.price,
        t3.price⟩ := by
  simp only [aggBar, List.foldl]
  rw [if_neg (by omega : ¬ t1.ts < t0.ts),
    if_neg (by omega : ¬ t2.ts < t0.ts),
    if_neg (by omega : ¬ t3.ts < t0.ts),
    if_pos (by omega : t0.ts ≤ t1.ts),
    if_pos (by omega : t1.ts ≤ t2.ts),
    if_pos (by omega : t2.ts ≤ t3.ts)]

/-- C2: for every bar `(o, h, l, c)` with `l ≤ min o c` and `max o c ≤ h`,
aggregating the four synthetic ticks of the Bar-to-Tick Synthesizer with a
single (daily) bucket covering all four reproduces exactly
`open = o, high = h, low = l, close = c`. -/
theorem synth_ticks_roundtrip (k lookback_minutes now : ℤ) (symbol : String)
    (o h l c : ℚ) (hl : l ≤ min o c) (hh : max o c ≤ h)
    (hwin : now - lookback_minutes * 60 ≤ 86400 * k) :
    get_ohlc symbol 1440 lookback_minutes now
        (synth_ticks_for_candle (86400 * k) symbol o h l c)
      = [⟨86400 * k, o, h, l, c⟩] := by
  have hb : ∀ m : ℤ, 0 ≤ m → m < 86400 →
      bucketOf (1440 * 60) (86400 * k + m) = 86400 * k := by
    intro m hm1 hm2
    have h86 : (1440 : ℤ) * 60 = 86400 := by norm_num
    rw [h86]
    exact bucketOf_eq 86400 k m (by norm_num) hm1 hm2
  have hsingle := get_ohlc_single_bucket symbol 1440 lookback_minutes now
    (86400 * k) (synth_ticks_for_candle (86400 * k) symbol o h l c)
    (by simp [synth_ticks_for_candle])
    (by
      intro tk htk
      simp only [synth_ticks_for_candle, List.mem_cons, List.not_mem_nil,
        or_false] at htk
      rcases htk with rfl | rfl | rfl | rfl <;> rfl)
    (by
      intro tk htk
      simp only [synth_ticks_for_candle, List.mem_cons, List.not_mem_nil,
        or_false] at htk
      rcases htk with rfl | rfl | rfl | rfl <;> simp <;> omega)
    (by
      intro tk htk
      simp only [synth_ticks_for_candle, List.mem_cons, List.not_mem_nil,
        or_false] at htk
      rcases htk with rfl | rfl | rfl | rfl
      · exact hb (0 * 60) (by norm_num) (by norm_num)
      · exact hb (1 * 60) (by norm_num) (by norm_num)
      · exact hb (2 * 60) (by norm_num) (by norm_num)
      · exact hb (3 * 60) (by norm_num) (by norm_num))
  rw [hsingle]
  have hfour := aggBar_four (86400 * k)
    ⟨86400 * k + 0 * 60, symbol, o⟩ ⟨86400 * k + 1 * 60, symbol, l⟩
    ⟨86400 * k + 2 * 60, symbol, h⟩ ⟨86400 * k + 3 * 60, symbol, c⟩
    (by norm_num) (by norm_num) (by norm_num)
  simp only [synth_ticks_for_candle]
  rw [hfour]
  have ho : o ≤ h := le_trans (le_max_left o c) hh
  have hc : c ≤ h := le_trans (le_max_right o c) hh
  have hlo : l ≤ o := le_trans hl (min_le_left o c)
  have hlc : l ≤ c := le_trans hl (min_le_right o c)
  have hlh : l ≤ h := le_trans hlo ho
  have hmax : max (max (max o l) h) c = h := by
    rw [max_eq_right (max_le ho hlh), max_eq_left hc]
  have hmin : min (min (min o l) h) c = l := by
    rw [min_eq_right hlo, min_eq_left hlh, min_eq_left hlc]
  simp only [Option.toList, hmax, hmin]

/-- C2 witness: the bar `(open=10, high=15, low=8, close=12)` round-trips. -/
theorem synth_ticks_roundtrip_witness :
    ((8 : ℚ) ≤ min 10 12 ∧ max (10 : ℚ) 12 ≤ 15 ∧
        (0 : ℤ) - 390 * 60 ≤ 86400 * 0) ∧
      get_ohlc "SPY" 1440 390 0
          (synth_ticks_for_candle (86400 * 0) "SPY" 10 15 8 12)
        = [⟨86400 * 0, 10, 15, 8, 12⟩] :=
  ⟨⟨by decide, by decide, by decide⟩,
    synth_ticks_roundtrip 0 390 0 "SPY" 10 15 8 12
      (by decide) (by decide) (by decide)⟩

/-- C3 counterexample: the raw value `0` is present and not above `1e12`, so
the claim's rule ("otherwise interpret as seconds since epoch") would give
the epoch instant `0`; the code returns the current time (here `5`)
instead, because `not ts_val` is true for `0`. -/
theorem ts_normalizer_zero_counterexample :
    ts_utc_from_finnhub 5 (some 0) = 5 ∧ (5 : ℚ) ≠ 0 := by
  refine ⟨by decide, by norm_num⟩

/-- C3 (amended): an absent **or zero** raw value normalizes to the current
time; a nonzero value above `1e12` is interpreted as milliseconds, any other
nonzero value as seconds; in particular `1690000000` and `1690000000000`
normalize to the same instant. -/
theorem ts_normalizer_rule (now v : ℚ) (hv : v ≠ 0) :
    ts_utc_from_finnhub now none = now ∧
    ts_utc_from_finnhub now (some 0) = now ∧
    ts_utc_from_finnhub now (some v) = (if v > 10 ^ 12 then v / 1000 else v) ∧
    ts_utc_from_finnhub now (some 1690000000) =
      ts_utc_from_finnhub now (some 1690000000000) := by
  refine ⟨rfl, by simp [ts_utc_from_finnhub], ?_, ?_⟩
  · simp [ts_utc_from_finnhub, hv]
  · norm_num [ts_utc_from_finnhub]

/-- C3 witness: the amended rule at `now = 7`, `v = 5`. -/
theorem ts_normalizer_rule_witness :
    (5 : ℚ) ≠ 0 ∧
      (ts_utc_from_finnhub 7 none = 7 ∧
        ts_utc_from_finnhub 7 (some 0) = 7 ∧
        ts_utc_from_finnhub 7 (some 5) = (if (5 : ℚ) > 10 ^ 12 then 5 / 1000 else 5) ∧
        ts_utc_from_finnhub 7 (some 1690000000) =
          ts_utc_from_finnhub 7 (some 1690000000000)) :=
  ⟨by norm_num, ts_normalizer_rule 7 5 (by norm_num)⟩

theorem broadcast_foldl {α : Type} (send : α → Bool) (l : List α)
    (r d : List α) :
    l.foldl (fun acc ws =>
        if send ws then (acc.1 ++ [ws], acc.2) else (acc.1, acc.2 ++ [ws]))
      (r, d)
      = (r ++ l.filter send, d ++ l.filter (fun ws => !send ws)) := by
  induction l generalizing r d with
  | nil => simp
  | cons w l ih =>
    rw [List.foldl_cons]
    cases hsw : send w <;> simp [hsw, ih, List.filter_cons]

theorem disconnect_foldl_active {α : Type} [DecidableEq α] (d : List α)
    (m : WSManager α) :
    (d.foldl (fun m' ws => m'.disconnect ws) m).active
      = m.active.filter (fun x => x ∉ d) := by
  induction d generalizing m with
  | nil => simp
  | cons w d ih =>
    rw [List.foldl_cons, ih]
    simp only [WSManager.disconnect, List.filter_filter]
    exact List.filter_congr (fun x _ => by
      simp [List.mem_cons, not_or, Bool.and_comm])

/-- C4: delivery is attempted to each registered subscriber independently —
exactly the subscribers whose send succeeds receive the message, a failed
subscriber does not stop later deliveries, every failed subscriber is
unregistered afterwards and every successful one stays registered. -/
theorem broadcast_failure_isolation {α : Type} [DecidableEq α]
    (m : WSManager α) (send : α → Bool) :
    (m.broadcast send).1 = m.active.filter send ∧
    (m.broadcast send).2.active = m.active.filter send ∧
    (∀ ws ∈ m.active, send ws = false → ws ∉ (m.broadcast send).2.active) ∧
    (∀ ws ∈ m.active, send ws = true → ws ∈ (m.broadcast send).1) := by
  have h1 : (m.broadcast send).1 = m.active.filter send := by
    simp only [WSManager.broadcast, broadcast_foldl, List.nil_append]
  have hact0 : (m.broadcast send).2.active
      = m.active.filter (fun x => x ∉ m.active.filter (fun ws => !send ws)) := by
    simp only [WSManager.broadcast, broadcast_foldl, List.nil_append]
    exact disconnect_foldl_active _ m
  have hact : (m.broadcast send).2.active = m.active.filter send := by
    rw [hact0]
    refine List.filter_congr (fun x hx => ?_)
    cases hsx : send x <;> simp [List.mem_filter, hx, hsx]
  refine ⟨h1, hact, ?_, ?_⟩
  · intro ws hws hfail
    rw [hact]
    simp [List.mem_filter, hfail]
  · intro ws hws hok
    rw [h1]
    simp [List.mem_filter, hws, hok]

/-- C4 witness: with 3 registered subscribers of which exactly subscriber 1
fails delivery, exactly 2 remain registered and both received the message. -/
theorem broadcast_failure_isolation_witness :
    ((⟨[1, 2, 3]⟩ : WSManager ℕ).broadcast (fun ws => ws != 1)).2.active
        = [2, 3] ∧
      ((⟨[1, 2, 3]⟩ : WSManager ℕ).broadcast (fun ws => ws != 1)).1
        = [2, 3] := by
  have h := broadcast_failure_isolation (⟨[1, 2, 3]⟩ : WSManager ℕ)
    (fun ws => ws != 1)
  exact ⟨h.2.1.trans (by decide), h.1.trans (by decide)⟩

/-- A chunk whose responses are `[429, 429, 200]` succeeds after exactly the
two backoff delays of attempts 0 and 1. -/
theorem fetch_chunk_429_429_200 (jitter : ℕ → ℚ) (resp : ℕ → ℕ)
    (h0 : resp 0 = 429) (h1 : resp 1 = 429) (h2 : resp 2 = 200) :
    fetch_chunk jitter resp
      = .success [backoff_delay jitter 0, backoff_delay jitter 1] := by
  simp [fetch_chunk, fetch_chunk_loop, h0, h1, h2, isTransient]

/-- A chunk whose first response is a non-transient failure status fails at
once, with no retry and no backoff delay. -/
theorem fetch_chunk_fatal (jitter : ℕ → ℚ) (resp : ℕ → ℕ) (s : ℕ)
    (h0 : resp 0 = s) (h200 : s ≠ 200) (htr : isTransient s = false) :
    fetch_chunk jitter resp = .failure s [] := by
  simp [fetch_chunk, fetch_chunk_loop, h0, h200, htr]

/-- Five transient responses exhaust the retry cap: five backoff delays,
then the failure is reported with the last status. -/
theorem fetch_chunk_transient_cap (jitter : ℕ → ℚ) (resp : ℕ → ℕ)
    (h : ∀ i, i < 5 → resp i = 429) :
    fetch_chunk jitter resp
      = .failure 429
          [backoff_delay jitter 0, backoff_delay jitter 1,
            backoff_delay jitter 2, backoff_delay jitter 3,
            backoff_delay jitter 4] := by
  have h0 := h 0 (by norm_num)
  have h1 := h 1 (by norm_num)
  have h2 := h 2 (by norm_num)
  have h3 := h 3 (by norm_num)
  have h4 := h 4 (by norm_num)
  simp [fetch_chunk, fetch_chunk_loop, h0, h1, h2, h3, h4, isTransient]

/-- If every chunk request succeeds, the loop never fails nor runs out of
fuel, provided the remaining range fits in the remaining iterations. -/
theorem backfill_loop_ok (env : BackfillEnv) (chunk_secs start : ℤ)
    (hc : 0 < chunk_secs)
    (hsucc : ∀ t1 t2 : ℤ, ∃ sl,
      fetch_chunk env.jitter (env.resp t1 t2) = .success sl) :
    ∀ (fuel : ℕ) (t2 : ℤ) (inserted : ℕ) (sleeps : List ℚ),
      t2 - start ≤ fuel * chunk_secs →
      ∃ n sl, backfill_loop env chunk_secs start fuel t2 inserted sleeps
        = (.ok n, sl) := by
  intro fuel
  induction fuel with
  | zero =>
    intro t2 inserted sleeps hb
    rw [backfill_loop, if_neg (by omega : ¬ start < t2)]
    exact ⟨inserted, sleeps, rfl⟩
  | succ f ih =>
    intro t2 inserted sleeps hb
    by_cases hlt : start < t2
    · obtain ⟨sl, hsl⟩ := hsucc (max start (t2 - chunk_secs)) t2
      rw [backfill_loop, if_pos hlt]
      simp only [hsl]
      apply ih
      have hF : 0 ≤ (f : ℤ) * chunk_secs := by positivity
      have hb' : t2 - start ≤ (f : ℤ) * chunk_secs + chunk_secs := by
        have : ((f + 1 : ℕ) : ℤ) * chunk_secs
            = (f : ℤ) * chunk_secs + chunk_secs := by push_cast; ring
        omega
      omega
    · rw [backfill_loop, if_neg hlt]
      exact ⟨inserted, sleeps, rfl⟩

/-- C5: when every chunk request answers `[429, 429, 200]`, each chunk
request performs exactly the two backoff delays of attempts 0 and 1 — the
delays are exponentially increasing with the random jitter — and the whole
backfill reports success, not a failure. -/
theorem backfill_transient_retry_success (env : BackfillEnv)
    (intraday : Bool) (days : ℕ) (now : ℤ)
    (hresp : ∀ t1 t2 : ℤ, env.resp t1 t2 0 = 429 ∧ env.resp t1 t2 1 = 429 ∧
      env.resp t1 t2 2 = 200)
    (hj : ∀ n, 0 ≤ env.jitter n ∧ env.jitter n < 1 / 2) :
    (∀ t1 t2 : ℤ, fetch_chunk env.jitter (env.resp t1 t2)
        = .success [backoff_delay env.jitter 0, backoff_delay env.jitter 1]) ∧
    backoff_delay env.jitter 0 < backoff_delay env.jitter 1 ∧
    (∃ n sl, backfill_yahoo env intraday days now = (.ok n, sl)) := by
  have hchunks : ∀ t1 t2 : ℤ, fetch_chunk env.jitter (env.resp t1 t2)
      = .success [backoff_delay env.jitter 0, backoff_delay env.jitter 1] :=
    fun t1 t2 => fetch_chunk_429_429_200 env.jitter (env.resp t1 t2)
      (hresp t1 t2).1 (hresp t1 t2).2.1 (hresp t1 t2).2.2
  refine ⟨hchunks, ?_, ?_⟩
  · have h0 := hj 0
    have h1 := hj 1
    simp only [backoff_delay, pow_zero, pow_one]
    have hm1 : min (8 : ℚ) 1 = 1 := by norm_num
    have hm2 : min (8 : ℚ) 2 = 2 := by norm_num
    rw [hm1, hm2]
    linarith [h0.2, h1.1]
  · unfold backfill_yahoo
    apply backfill_loop_ok
    · cases intraday <;> simp [chunk_days_for_res] <;> norm_num
    · exact fun t1 t2 => ⟨_, hchunks t1 t2⟩
    · cases intraday <;> simp [chunk_days_for_res] <;> push_cast <;> nlinarith
        [sq_nonneg ((days : ℤ))]

/-- C5 witness: a concrete environment answering `[429, 429, 200]`. -/
theorem backfill_transient_retry_success_witness :
    ((∀ t1 t2 : ℤ,
        (BackfillEnv.mk (fun _ _ i => if i < 2 then 429 else 200)
            (fun _ _ => 3) (fun _ => 0)).resp t1 t2 0 = 429 ∧
        (BackfillEnv.mk (fun _ _ i => if i < 2 then 429 else 200)
            (fun _ _ => 3) (fun _ => 0)).resp t1 t2 1 = 429 ∧
        (BackfillEnv.mk (fun _ _ i => if i < 2 then 429 else 200)
            (fun _ _ => 3) (fun _ => 0)).resp t1 t2 2 = 200) ∧
      (∀ n : ℕ, (0 : ℚ) ≤ 0 ∧ (0 : ℚ) < 1 / 2)) ∧
    (∃ n sl, backfill_yahoo
        (BackfillEnv.mk (fun _ _ i => if i < 2 then 429 else 200)
          (fun _ _ => 3) (fun _ => 0)) false 1 86400 = (.ok n, sl)) :=
  ⟨⟨fun _ _ => ⟨rfl, rfl, rfl⟩, fun _ => ⟨le_refl 0, by norm_num⟩⟩,
    (backfill_transient_retry_success
      (BackfillEnv.mk (fun _ _ i => if i < 2 then 429 else 200)
        (fun _ _ => 3) (fun _ => 0)) false 1 86400
      (fun _ _ => ⟨rfl, rfl, rfl⟩)
      (fun _ => ⟨le_refl 0, by norm_num⟩)).2.2⟩

/-- At any loop state, a non-transient first response for the current chunk
ends the loop at once with that chunk's boundaries and no new delay. -/
theorem backfill_loop_fatal (env : BackfillEnv) (chunk_secs start t2 : ℤ)
    (fuel inserted : ℕ) (sleeps : List ℚ) (s : ℕ)
    (hrun : start < t2) (hfuel : fuel ≠ 0) (hs200 : s ≠ 200)
    (htr : isTransient s = false)
    (hresp : env.resp (max start (t2 - chunk_secs)) t2 0 = s) :
    backfill_loop env chunk_secs start fuel t2 inserted sleeps
      = (.err s (max start (t2 - chunk_secs)) t2, sleeps) := by
  obtain ⟨f, rfl⟩ : ∃ f, fuel = f + 1 := ⟨fuel - 1, by omega⟩
  rw [backfill_loop, if_pos hrun]
  have hf := fetch_chunk_fatal env.jitter
    (env.resp (max start (t2 - chunk_secs)) t2) s hresp hs200 htr
  simp [hf]

/-- C6: a chunk request answered with a non-transient failure status (e.g.
403) aborts the whole backfill immediately — zero retries, zero backoff
delays — and the structured failure reports exactly that chunk's boundaries
`[t1, t2)`. Stated for the chunk loop at any reachable state, and for
`backfill_yahoo` when the very first chunk fails. -/
theorem backfill_fatal_aborts (env : BackfillEnv) (intraday : Bool)
    (chunk_secs start t2 : ℤ) (fuel inserted : ℕ) (sleeps : List ℚ)
    (days : ℕ) (now : ℤ) (s : ℕ)
    (hrun : start < t2) (hfuel : fuel ≠ 0) (hs200 : s ≠ 200)
    (htr : isTransient s = false)
    (hresp : env.resp (max start (t2 - chunk_secs)) t2 0 = s)
    (hdays : 0 < days)
    (hresp0 : env.resp
        (max (now - (days : ℤ) * 86400)
          (now - (chunk_days_for_res intraday : ℤ) * 86400)) now 0 = s) :
    backfill_loop env chunk_secs start fuel t2 inserted sleeps
        = (.err s (max start (t2 - chunk_secs)) t2, sleeps) ∧
    backfill_yahoo env intraday days now
        = (.err s (max (now - (days : ℤ) * 86400)
            (now - (chunk_days_for_res intraday : ℤ) * 86400)) now, []) := by
  refine ⟨backfill_loop_fatal env chunk_secs start t2 fuel inserted sleeps s
    hrun hfuel hs200 htr hresp, ?_⟩
  unfold backfill_yahoo
  exact backfill_loop_fatal env _ _ now (days + 1) 0 [] s
    (by
      have : (1 : ℤ) ≤ (days : ℤ) := by exact_mod_cast hdays
      nlinarith)
    (by omega) hs200 htr hresp0

/-- C6 witness: a 403 on the first chunk of a 1-day daily backfill. -/
theorem backfill_fatal_aborts_witness :
    ((0 : ℤ) < 86400 ∧ (403 : ℕ) ≠ 200 ∧ isTransient 403 = false ∧
        (0 : ℕ) < 1) ∧
      backfill_loop
          (BackfillEnv.mk (fun _ _ _ => 403) (fun _ _ => 0) (fun _ => 0))
          432000 0 2 86400 0 []
        = (.err 403 (max 0 ((86400 : ℤ) - 432000)) 86400, []) ∧
      backfill_yahoo
          (BackfillEnv.mk (fun _ _ _ => 403) (fun _ _ => 0) (fun _ => 0))
          false 1 86400
        = (.err 403 (max ((86400 : ℤ) - ((1 : ℕ) : ℤ) * 86400)
            ((86400 : ℤ) - (chunk_days_for_res false : ℤ) * 86400)) 86400,
            []) :=
  ⟨⟨by norm_num, by norm_num, by decide, by norm_num⟩,
    backfill_fatal_aborts
      (BackfillEnv.mk (fun _ _ _ => 403) (fun _ _ => 0) (fun _ => 0))
      false 432000 0 86400 2 0 [] 1 86400 403
      (by norm_num) (by norm_num) (by norm_num) (by decide) rfl
      (by norm_num) rfl⟩

/-- When every store write succeeds, a cycle writes exactly the ticks of the
symbols whose fetch yielded a usable price, in symbol order. -/
theorem poll_cycle_writes (now : ℤ) (store : Tick → Bool)
    (fetch : String → FetchResult) (hstore : ∀ tk, store tk = true) :
    ∀ (syms : List String) (out : List Tick),
      poll_cycle now store fetch syms out
        = (let w := out ++ syms.filterMap (fun sym => poll_tick now sym (fetch sym))
          { writes := w
            broadcasts := if w.isEmpty then [] else [w]
            crashed := false }) := by
  intro syms
  induction syms with
  | nil => intro out; simp [poll_cycle]
  | cons sym rest ih =>
    intro out
    rw [poll_cycle]
    cases hpt : poll_tick now sym (fetch sym) with
    | none => simp [hpt, ih out]
    | some tk => simp [hpt, hstore tk, ih (out ++ [tk])]

/-- C7: a failed fetch or unusable price skips only that symbol — with all
store writes succeeding, the cycle writes exactly the ticks of the usable
symbols; in particular with symbols `[QQQ, SPY]`, `QQQ` failing and `SPY`
succeeding, the cycle writes exactly one tick and broadcasts exactly one
message whose batch contains only the `SPY` tick. -/
theorem poll_cycle_symbol_isolation (now : ℤ) (store : Tick → Bool)
    (fetch : String → FetchResult) (syms : List String) (st : ℕ) (p : ℚ)
    (t : ℤ)
    (hstore : ∀ tk, store tk = true)
    (hq : fetch "QQQ" = .httpError st)
    (hs : fetch "SPY" = .ok (some p) (some t))
    (ht : t ≠ 0) :
    (poll_cycle now store fetch syms []).writes
        = syms.filterMap (fun sym => poll_tick now sym (fetch sym)) ∧
    finnhub_poll_cycle now store fetch
        = { writes := [⟨t, "SPY", p⟩]
            broadcasts := [[⟨t, "SPY", p⟩]]
            crashed := false } := by
  constructor
  · rw [poll_cycle_writes now store fetch hstore syms []]
    simp
  · unfold finnhub_poll_cycle
    rw [poll_cycle_writes now store fetch hstore ["QQQ", "SPY"] []]
    simp [hq, hs, poll_tick, ht]

/-- C7 witness: `QQQ` answers 500, `SPY` answers price 5 at `t = 100`. -/
theorem poll_cycle_symbol_isolation_witness :
    (fetchQQQFailSPYOk "QQQ" = .httpError 500 ∧
        fetchQQQFailSPYOk "SPY" = .ok (some 5) (some 100) ∧ (100 : ℤ) ≠ 0) ∧
      finnhub_poll_cycle 7 (fun _ => true) fetchQQQFailSPYOk
        = { writes := [⟨100, "SPY", 5⟩]
            broadcasts := [[⟨100, "SPY", 5⟩]]
            crashed := false } :=
  ⟨⟨rfl, rfl, by norm_num⟩,
    (poll_cycle_symbol_isolation 7 (fun _ => true) fetchQQQFailSPYOk
      ["QQQ", "SPY"] 500 5 100 (fun _ => rfl) rfl rfl (by norm_num)).2⟩

/-- C9 counterexample: with symbols `[QQQ, SPY]`, both fetches succeeding
and only the `QQQ` store write raising, the cycle aborts — `SPY`, whose own
write would have succeeded, is never fetched or written, and nothing is
broadcast — contradicting the claim that the remaining symbols of the cycle
are still written and the accumulated batch broadcast. -/
theorem store_failure_aborts_cycle_counterexample :
    fetchBothOk "SPY" = .ok (some 5) (some 100) ∧
    storeFailQQQ ⟨100, "SPY", 5⟩ = true ∧
    (finnhub_poll_cycle 7 storeFailQQQ fetchBothOk).writes = [] ∧
    (finnhub_poll_cycle 7 storeFailQQQ fetchBothOk).broadcasts = [] ∧
    (finnhub_poll_cycle 7 storeFailQQQ fetchBothOk).crashed = true := by
  exact ⟨rfl, by decide, by decide, by decide, by decide⟩

/-- C9 (amended): a store failure in the live polling ingestor is caught at
cycle granularity, not per write attempt: the raising write aborts the rest
of that cycle — later symbols are not processed and no broadcast is sent —
while the exception is absorbed by the cycle-level handler, so the task
itself continues; a cycle whose store writes all succeed never reaches that
handler. -/
theorem store_failure_cycle_level (now : ℤ) (store : Tick → Bool)
    (fetch : String → FetchResult) :
    (∀ (syms : List String) (out : List Tick),
      (poll_cycle now store fetch syms out).crashed = true →
        (poll_cycle now store fetch syms out).broadcasts = []) ∧
    ((∀ tk, store tk = true) →
      (finnhub_poll_cycle now store fetch).crashed = false) := by
  constructor
  · intro syms
    induction syms with
    | nil =>
      intro out h
      simp [poll_cycle] at h
    | cons sym rest ih =>
      intro out h
      rw [poll_cycle] at h ⊢
      cases hpt : poll_tick now sym (fetch sym) with
      | none =>
        rw [hpt] at h
        exact ih out h
      | some tk =>
        rw [hpt] at h
        by_cases hst : store tk = true
        · have h' : (poll_cycle now store fetch rest (out ++ [tk])).crashed
              = true := by simpa [hst] using h
          simpa [hst] using ih (out ++ [tk]) h'
        · simp [hst]
  · intro hstore
    unfold finnhub_poll_cycle
    rw [poll_cycle_writes now store fetch hstore ["QQQ", "SPY"] []]

/-- C9 witness: the cycle-level behaviour at concrete inputs. -/
theorem store_failure_cycle_level_witness :
    (poll_cycle 7 storeFailQQQ fetchBothOk ["QQQ", "SPY"] []).broadcasts
        = [] ∧
      (finnhub_poll_cycle 7 (fun _ => true) fetchBothOk).crashed = false :=
  ⟨(store_failure_cycle_level 7 storeFailQQQ fetchBothOk).1 ["QQQ", "SPY"] []
      (by decide),
    (store_failure_cycle_level 7 (fun _ => true) fetchBothOk).2
      (fun _ => rfl)⟩

/-- C10: the normalizer (`if not ts_val`) treats a present-but-zero raw
timestamp like an absent one, returning the current time rather than the
epoch instant; likewise the polling ingestor (`ts_sec = q.get("t") or 0`,
`ts = … if ts_sec else now`) coerces a missing or zero quote timestamp to
the current time in the tick it writes. -/
theorem ts_zero_treated_as_absent (nowQ : ℚ) (now : ℤ) (p : ℚ)
    (fetch : String → FetchResult)
    (hnone : fetch "SPY" = .ok (some p) none) :
    ts_utc_from_finnhub nowQ (some 0) = nowQ ∧
    ts_utc_from_finnhub nowQ none = nowQ ∧
    poll_tick now "SPY" (fetch "SPY") = some ⟨now, "SPY", p⟩ ∧
    poll_tick now "SPY" (.ok (some p) (some 0)) = some ⟨now, "SPY", p⟩ := by
  refine ⟨by simp [ts_utc_from_finnhub], rfl, ?_, ?_⟩
  · rw [hnone]
    simp [poll_tick]
  · simp [poll_tick]

/-- C10 witness. -/
theorem ts_zero_treated_as_absent_witness :
    fetchSPYNoTs "SPY" = .ok (some 5) none ∧
      (ts_utc_from_finnhub 7 (some 0) = 7 ∧
        ts_utc_from_finnhub 7 none = 7 ∧
        poll_tick 9 "SPY" (fetchSPYNoTs "SPY") = some ⟨9, "SPY", 5⟩ ∧
        poll_tick 9 "SPY" (.ok (some 5) (some 0)) = some ⟨9, "SPY", 5⟩) :=
  ⟨rfl, ts_zero_treated_as_absent 7 9 5 fetchSPYNoTs rfl⟩

/-- C8: each synthesizer emits exactly four ticks at deterministic, strictly
increasing offsets inside the bucket — open at offset 0, low at 1 unit,
high at 2 units, close at 3 units — with the unit scaled to the bucket
width: 1 minute for daily bars (bucket 1440 minutes), 15 seconds for minute
bars (bucket 60 seconds). -/
theorem synth_ticks_offsets (base ms : ℤ) (symbol : String) (o h l c : ℚ) :
    (synth_ticks_for_candle base symbol o h l c).length = 4 ∧
    (synth_ticks_for_candle base symbol o h l c).map Tick.price
        = [o, l, h, c] ∧
    (synth_ticks_for_candle base symbol o h l c).map Tick.ts
        = [base + 0 * 60, base + 1 * 60, base + 2 * 60, base + 3 * 60] ∧
    ((synth_ticks_for_candle base symbol o h l c).map Tick.ts).Chain'
        (· < ·) ∧
    (∀ tk ∈ synth_ticks_for_candle base symbol o h l c,
      base ≤ tk.ts ∧ tk.ts < base + 1440 * 60) ∧
    (synth_ticks_intraday ms symbol o h l c).length = 4 ∧
    (synth_ticks_intraday ms symbol o h l c).map Tick.price = [o, l, h, c] ∧
    (synth_ticks_intraday ms symbol o h l c).map Tick.ts
        = [ms + 0 * 15, ms + 1 * 15, ms + 2 * 15, ms + 3 * 15] ∧
    ((synth_ticks_intraday ms symbol o h l c).map Tick.ts).Chain' (· < ·) ∧
    (∀ tk ∈ synth_ticks_intraday ms symbol o h l c,
      ms ≤ tk.ts ∧ tk.ts < ms + 60) := by
  refine ⟨rfl, rfl, rfl, ?_, ?_, rfl, rfl, by norm_num [synth_ticks_intraday],
    ?_, ?_⟩
  · simp [synth_ticks_for_candle, List.chain'_cons] <;> omega
  · intro tk htk
    simp only [synth_ticks_for_candle, List.mem_cons, List.not_mem_nil,
      or_false] at htk
    rcases htk with rfl | rfl | rfl | rfl <;> constructor <;> simp <;> omega
  · simp [synth_ticks_intraday, List.chain'_cons] <;> omega
  · intro tk htk
    simp only [synth_ticks_intraday, List.mem_cons, List.not_mem_nil,
      or_false] at htk
    rcases htk with rfl | rfl | rfl | rfl <;> constructor <;> simp <;> omega

